import Mathlib

/-!
Shallow embedding of the orchestration loop (src/main/services/main-loop.ts)
and of the link resolver stub (src/main/services/hosters/fichier.ts).

The loop body is

    while (true) {
      await Promise.allSettled([
        watchProcesses(),
        DownloadManager.watchDownloads(),
        AchievementWatcherManager.watchAchievements(),
        DownloadManager.getSeedStatus(),
        UpdateManager.checkForUpdatePeriodically(),
      ]);
      await sleep(1500);
    }

The five task operations are opaque external collaborators.  We model one
run of the process by an environment that fixes, for every cycle index and
every task index, either the delay (in milliseconds after launch) at which
the asynchronous operation of that task settles together with its settled
result, or the fact that it never settles.  From the environment the loop
semantics below derives the start time of each cycle, the value that
Promise.allSettled resolves with, and the flat trace of task invocations,
exactly following the source: all five promises are created in array order
at the start of a cycle, allSettled resolves once the last of them settles
(it never rejects; failures are recorded as data in its result array), and
sleep(1500) separates a resolved cycle from the next one.  A cycle whose
tasks do not all settle blocks the await forever, so no later cycle has a
start time.
-/

namespace MainLoop

/-- One entry of the array Promise.allSettled resolves with: the promise
either fulfilled, or rejected with a reason.  allSettled itself never
rejects, so a failing task shows up only as a rejected entry here. -/
inductive SettledResult where
  | fulfilled : SettledResult
  | rejected (reason : String) : SettledResult
deriving DecidableEq, Repr

/-- The five task operations invoked by the loop body, in the order they
appear in the array literal passed to Promise.allSettled. -/
def taskNames : List String :=
  ["watchProcesses", "watchDownloads", "watchAchievements",
   "getSeedStatus", "checkForUpdatePeriodically"]

/-- Size of the task set. -/
def numTasks : Nat := taskNames.length

/-- The argument of the sleep call separating two cycles, in milliseconds. -/
def pacingDelay : Nat := 1500

/-- Behaviour of the opaque tasks over one run of the process.
`env k i = some (d, r)` means that in cycle `k` the promise created by task
`i` settles `d` milliseconds after launch with result `r`;
`env k i = none` means that promise never settles. -/
abbrev Env := Nat → Nat → Option (Nat × SettledResult)

/-- Whether every promise of cycle `k` eventually settles, i.e. whether the
await on Promise.allSettled for cycle `k` ever resolves. -/
def cycleSettles (env : Env) (k : Nat) : Bool :=
  (List.range numTasks).all fun i => (env k i).isSome

/-- Time from the launch of cycle `k` until Promise.allSettled resolves:
the largest settlement delay among the five promises.  Only meaningful for
a cycle in which every task settles. -/
def cycleDuration (env : Env) (k : Nat) : Nat :=
  ((List.range numTasks).map fun i => ((env k i).map Prod.fst).getD 0).foldr max 0

/-- Start time of cycle `k`, i.e. the instant its five promises are
created.  Cycle 0 starts at time 0.  Cycle `k+1` starts once allSettled of
cycle `k` has resolved and sleep(1500) has elapsed; if some promise of
cycle `k` never settles the loop stays blocked at the await, so cycle
`k+1` has no start time. -/
def cycleStart (env : Env) : Nat → Option Nat
  | 0 => some 0
  | k + 1 =>
    match cycleStart env k with
    | none => none
    | some t =>
      if cycleSettles env k then some (t + cycleDuration env k + pacingDelay)
      else none

/-- The array Promise.allSettled resolves with for cycle `k`: one entry per
task, holding the settled result of that task.  An entry is `none` only for
a task that never settles (in which case allSettled never resolves). -/
def cycleOutcomes (env : Env) (k : Nat) : List (Option SettledResult) :=
  (List.range numTasks).map fun i => (env k i).map Prod.snd

/-- Absolute settlement time of task `i` of cycle `k`, when the cycle
starts and the task settles. -/
def settleTime (env : Env) (k i : Nat) : Option Nat :=
  match cycleStart env k, env k i with
  | some t, some (d, _) => some (t + d)
  | _, _ => none

/-- The invocations performed by cycle `k`: if the loop reaches cycle `k`,
the array literal is evaluated left to right, invoking each of the five
tasks exactly once, in declaration order. -/
def cycleLaunches (env : Env) (k : Nat) : List (Nat × Nat) :=
  match cycleStart env k with
  | some _ => (List.range numTasks).map fun i => (k, i)
  | none => []

/-- Flat trace of task invocations over the first `N` iterations of the
loop, as pairs (cycle index, task index), in invocation order. -/
def invocationTrace (env : Env) : Nat → List (Nat × Nat)
  | 0 => []
  | N + 1 => invocationTrace env N ++ cycleLaunches env N

/-- Number of cycles among the first `N` that the loop actually launches. -/
def startedCycles (env : Env) (N : Nat) : Nat :=
  ((List.range N).filter fun k => (cycleStart env k).isSome).length

/-- The sequence of task names invoked by cycle `k`. -/
def cycleTaskNames (env : Env) (k : Nat) : List String :=
  (cycleLaunches env k).map fun p => taskNames.getD p.2 ""

/-- Concrete environment: every task of every cycle fulfills 5 ms after
launch. -/
def envAllOk : Env := fun _ _ => some (5, SettledResult.fulfilled)

/-- Concrete environment: every task of every cycle settles 5 ms after
launch, but task 1 always rejects. -/
def envOneFails : Env := fun _ i =>
  some (5, if i == 1 then SettledResult.rejected "net" else SettledResult.fulfilled)

/-- Concrete environment: task 3 of cycle 2 never settles; every other
task of every cycle fulfills 5 ms after launch. -/
def envHang : Env := fun k i =>
  if k == 2 && i == 3 then none else some (5, SettledResult.fulfilled)

end MainLoop

namespace FichierApi

/-- Shallow embedding of FichierApi.getDownloadUrl
(src/main/services/hosters/fichier.ts): the async body is a single
`return url`, so the promise always fulfills with the argument; `Except`
models the fulfilled/rejected split of the returned promise. -/
def getDownloadUrl (url : String) : Except String String :=
  Except.ok url

end FichierApi

namespace MainLoop

lemma le_foldr_max (l : List Nat) (x : Nat) (hx : x ∈ l) : x ≤ l.foldr max 0 := by
  induction l with
  | nil => cases hx
  | cons a t ih =>
    rcases List.mem_cons.mp hx with h | h
    · subst h; exact Nat.le_max_left _ _
    · exact le_trans (ih h) (Nat.le_max_right _ _)

lemma delay_le_cycleDuration (env : Env) (k i d : Nat) (r : SettledResult)
    (hi : i < numTasks) (h : env k i = some (d, r)) : d ≤ cycleDuration env k := by
  apply le_foldr_max
  apply List.mem_map.mpr
  exact ⟨i, List.mem_range.mpr hi, by rw [h]; rfl⟩

lemma cycleSettles_of_forall (env : Env) (k : Nat)
    (h : ∀ j, j < numTasks → (env k j).isSome = true) :
    cycleSettles env k = true := by
  apply List.all_eq_true.mpr
  intro i hi
  exact h i (List.mem_range.mp hi)

lemma cycleStart_isSome (env : Env)
    (h : ∀ m, cycleSettles env m = true) : ∀ m, (cycleStart env m).isSome = true := by
  intro m
  induction m with
  | zero => rfl
  | succ k ih =>
    cases ho : cycleStart env k with
    | none => rw [ho] at ih; simp at ih
    | some t => simp [cycleStart, ho, h k]

lemma cycleLaunches_of_isSome (env : Env) (k : Nat)
    (h : (cycleStart env k).isSome = true) :
    cycleLaunches env k = (List.range numTasks).map fun i => (k, i) := by
  unfold cycleLaunches
  rcases Option.isSome_iff_exists.mp h with ⟨t, ht⟩
  rw [ht]

lemma mem_cycleLaunches (env : Env) (m : Nat) (p : Nat × Nat)
    (hp : p ∈ cycleLaunches env m) :
    p.1 = m ∧ p.2 < numTasks ∧ (cycleStart env m).isSome = true := by
  unfold cycleLaunches at hp
  cases ho : cycleStart env m with
  | none => rw [ho] at hp; cases hp
  | some t =>
    rw [ho] at hp
    rcases List.mem_map.mp hp with ⟨i, hi, rfl⟩
    exact ⟨rfl, List.mem_range.mp hi, rfl⟩

lemma mem_invocationTrace (env : Env) (N : Nat) (p : Nat × Nat)
    (hp : p ∈ invocationTrace env N) :
    p.1 < N ∧ p.2 < numTasks ∧ (cycleStart env p.1).isSome = true := by
  induction N with
  | zero => cases hp
  | succ n ih =>
    simp only [invocationTrace] at hp
    rcases List.mem_append.mp hp with h | h
    · rcases ih h with ⟨h1, h2, h3⟩
      exact ⟨Nat.lt_succ_of_lt h1, h2, h3⟩
    · rcases mem_cycleLaunches env n p h with ⟨h1, h2, h3⟩
      rw [h1]
      exact ⟨Nat.lt_succ_self _, h2, h1 ▸ h3⟩

end MainLoop

namespace MainLoop

lemma filter_invocationTrace (env : Env) (k N : Nat) (hk : k < N) :
    (invocationTrace env N).filter (fun p => p.1 == k) = cycleLaunches env k := by
  induction N with
  | zero => cases hk
  | succ n ih =>
    simp only [invocationTrace, List.filter_append]
    by_cases h : k < n
    · rw [ih h]
      have hnil : (cycleLaunches env n).filter (fun p => p.1 == k) = [] := by
        apply List.filter_eq_nil_iff.mpr
        intro p hp
        have h1 := (mem_cycleLaunches env n p hp).1
        simp only [h1, beq_iff_eq]
        omega
      rw [hnil, List.append_nil]
    · have hkn : k = n := by omega
      subst hkn
      have h1 : (invocationTrace env k).filter (fun p => p.1 == k) = [] := by
        apply List.filter_eq_nil_iff.mpr
        intro p hp
        have := (mem_invocationTrace env k p hp).1
        simp only [beq_iff_eq]
        omega
      have h2 : (cycleLaunches env k).filter (fun p => p.1 == k) = cycleLaunches env k := by
        apply List.filter_eq_self.mpr
        intro p hp
        have := (mem_cycleLaunches env k p hp).1
        simp [this]
      rw [h1, h2, List.nil_append]

lemma count_pair_map_range (k i : Nat) :
    ∀ n, i < n → ((List.range n).map fun j => (k, j)).count (k, i) = 1 := by
  intro n
  induction n with
  | zero => intro h; omega
  | succ m ih =>
    intro h
    rw [List.range_succ, List.map_append, List.count_append]
    by_cases him : i < m
    · rw [ih him]
      have hne : (((k, m) == (k, i)) : Bool) = false := by
        have : m ≠ i := by omega
        simp [this]
      simp [List.count_cons, hne]
    · have : i = m := by omega
      subst this
      have hz : ((List.range i).map fun j => (k, j)).count (k, i) = 0 := by
        apply List.count_eq_zero.mpr
        intro hmem
        rcases List.mem_map.mp hmem with ⟨j, hj, hji⟩
        have hj2 : j = i := by
          have := congrArg Prod.snd hji
          simpa using this
        subst hj2
        exact absurd (List.mem_range.mp hj) (lt_irrefl _)
      rw [hz]
      simp [List.count_cons]

lemma count_invocationTrace (env : Env) (N k i : Nat) (hk : k < N)
    (hi : i < numTasks) (hs : (cycleStart env k).isSome = true) :
    (invocationTrace env N).count (k, i) = 1 := by
  induction N with
  | zero => omega
  | succ n ih =>
    simp only [invocationTrace, List.count_append]
    by_cases h : k < n
    · rw [ih h]
      have hz : (cycleLaunches env n).count (k, i) = 0 := by
        apply List.count_eq_zero.mpr
        intro hmem
        have h1 := (mem_cycleLaunches env n _ hmem).1
        simp only at h1
        omega
      omega
    · have hkn : k = n := by omega
      subst hkn
      have h0 : (invocationTrace env k).count (k, i) = 0 := by
        apply List.count_eq_zero.mpr
        intro hmem
        have h1 := (mem_invocationTrace env k _ hmem).1
        simp only at h1
        omega
      have h1 : (cycleLaunches env k).count (k, i) = 1 := by
        rw [cycleLaunches_of_isSome env k hs]
        exact count_pair_map_range k i numTasks hi
      omega

end MainLoop

namespace MainLoop

/-- C1: Fault isolation. If in cycle `k` some task rejects, and every task
of every cycle settles, then every task of cycle `k` settles no later than
the instant allSettled resolves, the rejection is recorded as data in the
array allSettled resolves with, and the loop still reaches every cycle. -/
theorem fault_isolation (env : Env) (k i d : Nat) (r : String)
    (hi : i < numTasks)
    (hfail : env k i = some (d, SettledResult.rejected r))
    (hsettle : ∀ m j, j < numTasks → (env m j).isSome = true) :
    (∀ j, j < numTasks → ∃ dj rj, env k j = some (dj, rj) ∧ dj ≤ cycleDuration env k) ∧
    (cycleOutcomes env k)[i]? = some (some (SettledResult.rejected r)) ∧
    (∀ m, (cycleStart env m).isSome = true) := by
  refine ⟨?_, ?_, ?_⟩
  · intro j hj
    rcases Option.isSome_iff_exists.mp (hsettle k j hj) with ⟨⟨dj, rj⟩, h⟩
    exact ⟨dj, rj, h, delay_le_cycleDuration env k j dj rj hj h⟩
  · unfold cycleOutcomes
    rw [List.getElem?_map, List.getElem?_range hi, Option.map_some', hfail]
    rfl
  · exact cycleStart_isSome env fun m => cycleSettles_of_forall env m (hsettle m)

/-- Witness for C1 at a concrete run: task 1 rejects in cycle 0, all
other behaviour settles, and cycle 3 still starts. -/
theorem fault_isolation_witness :
    (1 : Nat) < numTasks ∧
    (cycleOutcomes envOneFails 0)[1]? = some (some (SettledResult.rejected "net")) ∧
    (cycleStart envOneFails 3).isSome = true := by
  have h := fault_isolation envOneFails 0 1 5 "net" (by decide) rfl
    (fun m j hj => rfl)
  exact ⟨by decide, h.2.1, h.2.2 3⟩

/-- C2: No cycle overlap and pacing. If cycle `k` starts at `t` and all its
tasks settle, cycle `k+1` starts exactly at `t` plus the cycle duration
plus the pacing delay, and every settlement of cycle `k` happens at least
`pacingDelay` before that start. -/
theorem no_cycle_overlap (env : Env) (k t : Nat)
    (h1 : cycleStart env k = some t) (h2 : cycleSettles env k = true) :
    cycleStart env (k + 1) = some (t + cycleDuration env k + pacingDelay) ∧
    ∀ j s, j < numTasks → settleTime env k j = some s →
      s + pacingDelay ≤ t + cycleDuration env k + pacingDelay := by
  constructor
  · simp [cycleStart, h1, h2]
  · intro j s hj hs
    unfold settleTime at hs
    rw [h1] at hs
    cases hjk : env k j with
    | none => rw [hjk] at hs; cases hs
    | some p =>
      obtain ⟨dd, rr⟩ := p
      rw [hjk] at hs
      have hsd : t + dd = s := by
        injection hs
      have hle := delay_le_cycleDuration env k j dd rr hj hjk
      omega

/-- Witness for C2 at a concrete run: cycle 0 starts at 0, cycle 1 starts
at 0 plus cycle duration plus pacing delay, and the settlement of task 0
respects the bound. -/
theorem no_cycle_overlap_witness :
    cycleStart envAllOk 1 = some (0 + cycleDuration envAllOk 0 + pacingDelay) ∧
    5 + pacingDelay ≤ 0 + cycleDuration envAllOk 0 + pacingDelay := by
  have h := no_cycle_overlap envAllOk 0 0 rfl (by decide)
  exact ⟨h.1, h.2 0 5 (by decide) rfl⟩

/-- C3: Liveness. If every task of every cycle settles, the loop reaches
every cycle index: after `N` iterations all of the first `N` cycles have
started, so the cycle count is `N`, unbounded in `N`. -/
theorem orchestrator_liveness (env : Env)
    (hsettle : ∀ m j, j < numTasks → (env m j).isSome = true) :
    ∀ N, (cycleStart env N).isSome = true ∧ startedCycles env N = N := by
  have hall := cycleStart_isSome env fun m => cycleSettles_of_forall env m (hsettle m)
  intro N
  refine ⟨hall N, ?_⟩
  unfold startedCycles
  have hfull : ((List.range N).filter fun k => (cycleStart env k).isSome) = List.range N :=
    List.filter_eq_self.mpr fun k _ => hall k
  rw [hfull, List.length_range]

/-- Witness for C3 at a concrete run: cycle 4 starts and the first 4
cycles all started. -/
theorem orchestrator_liveness_witness :
    (cycleStart envAllOk 4).isSome = true ∧ startedCycles envAllOk 4 = 4 :=
  orchestrator_liveness envAllOk (fun _ _ _ => rfl) 4

/-- C4: Exactly-once launch in declared order. In any reached cycle `k`
the invocations belonging to `k` within the trace are exactly tasks
0,1,2,3,4 in declared order, and each task is invoked exactly once in that
cycle. -/
theorem exactly_once_in_order (env : Env) (k N : Nat)
    (hk : k < N) (hs : (cycleStart env k).isSome = true) :
    (invocationTrace env N).filter (fun p => p.1 == k)
      = ((List.range numTasks).map fun i => (k, i)) ∧
    ∀ i, i < numTasks → (invocationTrace env N).count (k, i) = 1 := by
  constructor
  · rw [filter_invocationTrace env k N hk, cycleLaunches_of_isSome env k hs]
  · intro i hi
    exact count_invocationTrace env N k i hk hi hs

/-- Witness for C4 at a concrete run: cycle 1 of the first 2 iterations
launches tasks 0..4 in order, each exactly once. -/
theorem exactly_once_in_order_witness :
    (invocationTrace envAllOk 2).filter (fun p => p.1 == 1)
      = ((List.range numTasks).map fun i => (1, i)) ∧
    (invocationTrace envAllOk 2).count (1, 2) = 1 := by
  have h := exactly_once_in_order envAllOk 1 2 (by decide) (by decide)
  exact ⟨h.1, h.2 2 (by decide)⟩

end MainLoop

/-- C5: Resolver identity law. For every input string the link resolver
stub returns it unchanged, with no validation or transformation. -/
theorem resolver_identity (s : String) :
    FichierApi.getDownloadUrl s = Except.ok s := rfl

/-- C6: Resolver always succeeds. For every input string the asynchronous
operation of the link resolver stub fulfills; it never rejects. -/
theorem resolver_always_succeeds (s : String) :
    ∃ v, FichierApi.getDownloadUrl s = Except.ok v := ⟨s, rfl⟩

namespace MainLoop

/-- C7: Outcome independence. Two runs whose tasks settle at the same
delays, regardless of the success or failure of each settlement, give the
orchestrator identical behaviour: the same cycle start times and the same
invocation trace. No outcome data flows into the loop state. -/
theorem outcome_independence (env1 env2 : Env)
    (h : ∀ k i, (env1 k i).map Prod.fst = (env2 k i).map Prod.fst) :
    (∀ k, cycleStart env1 k = cycleStart env2 k) ∧
    (∀ N, invocationTrace env1 N = invocationTrace env2 N) := by
  have hsome : ∀ k i, (env1 k i).isSome = (env2 k i).isSome := by
    intro k i
    have hmap := congrArg Option.isSome (h k i)
    simpa using hmap
  have hsettles : ∀ k, cycleSettles env1 k = cycleSettles env2 k := by
    intro k
    unfold cycleSettles
    have hfun : (fun i => (env1 k i).isSome) = fun i => (env2 k i).isSome :=
      funext fun i => hsome k i
    rw [hfun]
  have hdur : ∀ k, cycleDuration env1 k = cycleDuration env2 k := by
    intro k
    unfold cycleDuration
    have hfun : (fun i => ((env1 k i).map Prod.fst).getD 0)
        = fun i => ((env2 k i).map Prod.fst).getD 0 :=
      funext fun i => by rw [h k i]
    rw [hfun]
  have hstart : ∀ k, cycleStart env1 k = cycleStart env2 k := by
    intro k
    induction k with
    | zero => rfl
    | succ n ih =>
      simp only [cycleStart]
      rw [ih, hsettles n, hdur n]
  have hlaunch : ∀ k, cycleLaunches env1 k = cycleLaunches env2 k := by
    intro k
    unfold cycleLaunches
    rw [hstart k]
  have htrace : ∀ N, invocationTrace env1 N = invocationTrace env2 N := by
    intro N
    induction N with
    | zero => rfl
    | succ n ih =>
      simp only [invocationTrace]
      rw [ih, hlaunch n]
  exact ⟨hstart, htrace⟩

/-- Witness for C7 at two concrete runs with identical settlement delays
but different outcomes (all fulfill versus task 1 always rejects): equal
cycle start times and equal invocation traces. -/
theorem outcome_independence_witness :
    cycleStart envAllOk 2 = cycleStart envOneFails 2 ∧
    invocationTrace envAllOk 2 = invocationTrace envOneFails 2 := by
  have h := outcome_independence envAllOk envOneFails (fun _ _ => rfl)
  exact ⟨h.1 2, h.2 2⟩

/-- C8: Fixed task set. Every reached cycle invokes exactly the declared
task name sequence, so any two reached cycles invoke the same ordered
task set; nothing is added or removed between cycles. -/
theorem fixed_task_set (env : Env) (k m : Nat)
    (hk : (cycleStart env k).isSome = true)
    (hm : (cycleStart env m).isSome = true) :
    cycleTaskNames env k = taskNames ∧ cycleTaskNames env k = cycleTaskNames env m := by
  have hgen : ∀ n, (cycleStart env n).isSome = true → cycleTaskNames env n = taskNames := by
    intro n hn
    unfold cycleTaskNames
    rw [cycleLaunches_of_isSome env n hn, List.map_map]
    rfl
  exact ⟨hgen k hk, (hgen k hk).trans (hgen m hm).symm⟩

/-- Witness for C8 at a concrete run: cycles 0 and 1 both invoke exactly
the declared task names. -/
theorem fixed_task_set_witness :
    cycleTaskNames envAllOk 0 = taskNames ∧
    cycleTaskNames envAllOk 0 = cycleTaskNames envAllOk 1 :=
  fixed_task_set envAllOk 0 1 (by decide) (by decide)

/-- C9: Starvation on a hung task. If a task of cycle `k` never settles,
no cycle after `k` ever starts, and no invocation in any trace belongs to
a cycle after `k`: no task is ever invoked again. -/
theorem starvation_on_hung_task (env : Env) (k i : Nat)
    (hi : i < numTasks) (hhang : env k i = none) :
    (∀ m, k < m → cycleStart env m = none) ∧
    (∀ N p, p ∈ invocationTrace env N → p.1 ≤ k) := by
  have hns : cycleSettles env k = false := by
    cases hcs : cycleSettles env k with
    | false => rfl
    | true =>
      have hall := List.all_eq_true.mp hcs i (List.mem_range.mpr hi)
      rw [hhang] at hall
      simp at hall
  have hnone : ∀ m, k < m → cycleStart env m = none := by
    intro m
    induction m with
    | zero => intro h; omega
    | succ n ih =>
      intro hm
      simp only [cycleStart]
      by_cases hkn : k < n
      · rw [ih hkn]
      · have hkeq : k = n := by omega
        subst hkeq
        cases hck : cycleStart env k with
        | none => rfl
        | some t => rw [hns]; rfl
  refine ⟨hnone, ?_⟩
  intro N p hp
  rcases mem_invocationTrace env N p hp with ⟨_, _, h3⟩
  by_contra hgt
  push_neg at hgt
  rw [hnone p.1 hgt] at h3
  cases h3

/-- Witness for C9 at a concrete run in which task 3 of cycle 2 hangs:
cycles 3 and 5 never start. -/
theorem starvation_on_hung_task_witness :
    (3 : Nat) < numTasks ∧ cycleStart envHang 3 = none ∧ cycleStart envHang 5 = none := by
  have h := starvation_on_hung_task envHang 2 3 (by decide) rfl
  exact ⟨by decide, h.1 3 (by decide), h.1 5 (by decide)⟩

/-- C10: Hardcoded configuration. The pacing delay is the constant 1500 ms
and the task set is the fixed five-element list of task names from the
array literal; neither is a parameter of the loop. -/
theorem hardcoded_constants :
    pacingDelay = 1500 ∧
    taskNames = ["watchProcesses", "watchDownloads", "watchAchievements",
      "getSeedStatus", "checkForUpdatePeriodically"] ∧
    numTasks = 5 :=
  ⟨rfl, rfl, rfl⟩

end MainLoop
